import Mathlib

/-!
Verification development for the emission-downscaling program.

The program operates on xarray DataArrays of floating-point values indexed
by spatial coordinates.  We embed the numeric values as an exact value type
`Val` that carries, besides finite numbers (modelled as rationals, since the
claims are about exact arithmetic), the undefined value NaN and the two
infinities produced by division by zero; the IEEE rules the program relies
on (NaN propagation, 0/0 = NaN, nonzero/0 = signed infinity, fillna) are
embedded explicitly.  Grids are rectangular lists of rows (outer index y,
inner index x) together with the two coordinate arrays, mirroring the
DataArray layout used by the source.
-/

/-- Numeric value of a grid cell: a finite number (exact), NaN, or a signed
infinity.  Models the floating-point values flowing through the program. -/
inductive Val where
  | num (q : ℚ)
  | nan
  | inf
  | neginf
deriving DecidableEq, Repr

/-- Addition on `Val`, following IEEE semantics: NaN propagates, opposite
infinities give NaN.  This is the reduction performed by numpy sum. -/
def valAdd : Val → Val → Val
  | Val.num a, Val.num b => Val.num (a + b)
  | Val.num _, Val.inf => Val.inf
  | Val.num _, Val.neginf => Val.neginf
  | Val.num _, Val.nan => Val.nan
  | Val.inf, Val.num _ => Val.inf
  | Val.inf, Val.inf => Val.inf
  | Val.inf, Val.neginf => Val.nan
  | Val.inf, Val.nan => Val.nan
  | Val.neginf, Val.num _ => Val.neginf
  | Val.neginf, Val.inf => Val.nan
  | Val.neginf, Val.neginf => Val.neginf
  | Val.neginf, Val.nan => Val.nan
  | Val.nan, _ => Val.nan

/-- Multiplication on `Val` (IEEE rules: NaN propagates, 0 times infinity is
NaN).  Used for the final elementwise combine step of the downscaler. -/
def valMul : Val → Val → Val
  | Val.num a, Val.num b => Val.num (a * b)
  | Val.num a, Val.inf => if a = 0 then Val.nan else if 0 < a then Val.inf else Val.neginf
  | Val.num a, Val.neginf => if a = 0 then Val.nan else if 0 < a then Val.neginf else Val.inf
  | Val.num _, Val.nan => Val.nan
  | Val.inf, Val.num b => if b = 0 then Val.nan else if 0 < b then Val.inf else Val.neginf
  | Val.inf, Val.inf => Val.inf
  | Val.inf, Val.neginf => Val.neginf
  | Val.inf, Val.nan => Val.nan
  | Val.neginf, Val.num b => if b = 0 then Val.nan else if 0 < b then Val.neginf else Val.inf
  | Val.neginf, Val.inf => Val.neginf
  | Val.neginf, Val.neginf => Val.inf
  | Val.neginf, Val.nan => Val.nan
  | Val.nan, _ => Val.nan

/-- Division on `Val` (IEEE rules: 0/0 = NaN, nonzero/0 = signed infinity,
finite/infinite = 0, NaN propagates).  This is the elementwise division
`da_fine / da_coarse_regridded` of `fractional_contribution`. -/
def valDiv : Val → Val → Val
  | Val.num a, Val.num b =>
      if b = 0 then (if a = 0 then Val.nan else if 0 < a then Val.inf else Val.neginf)
      else Val.num (a / b)
  | Val.num _, Val.inf => Val.num 0
  | Val.num _, Val.neginf => Val.num 0
  | Val.num _, Val.nan => Val.nan
  | Val.inf, Val.num b => if b < 0 then Val.neginf else Val.inf
  | Val.inf, Val.inf => Val.nan
  | Val.inf, Val.neginf => Val.nan
  | Val.inf, Val.nan => Val.nan
  | Val.neginf, Val.num b => if b < 0 then Val.inf else Val.neginf
  | Val.neginf, Val.inf => Val.nan
  | Val.neginf, Val.neginf => Val.nan
  | Val.neginf, Val.nan => Val.nan
  | Val.nan, _ => Val.nan

instance : Zero Val := ⟨Val.num 0⟩

instance : Add Val := ⟨valAdd⟩

theorem valAdd_assoc (a b c : Val) : valAdd (valAdd a b) c = valAdd a (valAdd b c) := by
  cases a <;> cases b <;> cases c <;> simp [valAdd, add_assoc]

theorem valAdd_comm (a b : Val) : valAdd a b = valAdd b a := by
  cases a <;> cases b <;> simp [valAdd, add_comm]

theorem valAdd_zero (a : Val) : valAdd a (Val.num 0) = a := by
  cases a <;> simp [valAdd]

instance : AddCommMonoid Val where
  add_assoc := valAdd_assoc
  zero_add a := by rw [show ((0 : Val) + a) = valAdd (Val.num 0) a from rfl, valAdd_comm]
                   exact valAdd_zero a
  add_zero := valAdd_zero
  add_comm := valAdd_comm
  nsmul := nsmulRec

theorem val_add_def (a b : Val) : a + b = valAdd a b := rfl

theorem val_zero_def : (0 : Val) = Val.num 0 := rfl

/-- The aggregation function `np.sum` applied to the (flattened) values of a
coarsening window. -/
def npSum (l : List Val) : Val := l.sum

/-- `fillna(0)` on one value: NaN is replaced by 0, everything else (finite
numbers and infinities) is returned unchanged. -/
def fillnaVal (v : Val) : Val := if v = Val.nan then Val.num 0 else v

/-- `v` is not a negative value: it is NaN, +infinity, or a finite number
that is greater than or equal to zero.  (Negative finite numbers and negative
infinity are the excluded values.) -/
def Val.notNeg : Val → Prop
  | Val.num a => 0 ≤ a
  | Val.nan => True
  | Val.inf => True
  | Val.neginf => False

instance : DecidablePred Val.notNeg := fun v =>
  match v with
  | Val.num a => (inferInstance : Decidable (0 ≤ a))
  | Val.nan => Decidable.isTrue trivial
  | Val.inf => Decidable.isTrue trivial
  | Val.neginf => Decidable.isFalse (fun h => h)

/-- A grid: rectangular data (outer list indexed by y, inner lists indexed
by x) plus the two cell-center coordinate arrays.  Mirrors the xarray
DataArray shape used throughout the source. -/
structure Grid where
  x : List ℚ
  y : List ℚ
  data : List (List Val)
deriving DecidableEq, Repr

/-- Total access to a data cell, with NaN as the out-of-range default (out of
range accesses never arise in the claims, all of which carry bounds). -/
def cell (rows : List (List Val)) (i j : Nat) : Val := (rows.getD i []).getD j Val.nan

/-- Shape invariant of a grid: the data has one row per y coordinate and one
column per x coordinate. -/
def Grid.WellShaped (g : Grid) : Prop :=
  g.data.length = g.y.length ∧ ∀ r ∈ g.data, r.length = g.x.length

instance (g : Grid) : Decidable g.WellShaped := by
  unfold Grid.WellShaped; infer_instance

/-- A map projection as constructed by `get_cmaq_projection`
(src/downscaler/utils/cmaq.py lines 98-122): a cartopy Lambert conformal
projection determined by central longitude/latitude, the two standard
parallels, and the false easting/northing.  The constant string-valued
proj4 parameters (proj, ellps) are identical for every projection the
program builds and are omitted. -/
structure Projection where
  central_longitude : ℚ
  central_latitude : ℚ
  lat_1 : ℚ
  lat_2 : ℚ
  x_0 : ℚ
  y_0 : ℚ
deriving DecidableEq, Repr

/-- The `proj4_params` mapping of a cartopy Lambert conformal projection,
as the association list iterated over by `align_coordinates`
(src/downscaler/utils/xarray.py line 170). -/
def Projection.proj4_params (p : Projection) : List (String × ℚ) :=
  [("lon_0", p.central_longitude), ("lat_0", p.central_latitude),
   ("lat_1", p.lat_1), ("lat_2", p.lat_2), ("x_0", p.x_0), ("y_0", p.y_0)]

/-- The Python exceptions raised by the program, with the payload each site
attaches. -/
inductive PyError where
  | projectionMismatch (bad_vals : List (String × ℚ × ℚ))
  | invalidGridFactor (gridfactor : Int)
  | typeError (msg : String)
  | keyError (key : String)
deriving DecidableEq, Repr

/-- The `bad_vals` dictionary computed by `align_coordinates`
(src/downscaler/utils/xarray.py lines 169-175): for every proj4 parameter of
`proj_start` other than the false easting `x_0` and false northing `y_0`,
the final value is looked up and recorded together with the start value when
the two differ.  (For the projections the program constructs the lookup
always succeeds; a missing key, which in Python would raise KeyError, is
skipped.) -/
def align_bad_vals (proj_start proj_final : Projection) : List (String × ℚ × ℚ) :=
  proj_start.proj4_params.filterMap (fun kv =>
    if kv.1 = "x_0" ∨ kv.1 = "y_0" then none
    else
      match proj_final.proj4_params.lookup kv.1 with
      | some val_final => if val_final ≠ kv.2 then some (kv.1, kv.2, val_final) else none
      | none => none)

/-- `align_coordinates` (src/downscaler/utils/xarray.py lines 134-199):
verify that all projection parameters other than the false easting and false
northing agree, raising ValueError with the offending parameters otherwise;
on success shift the x coordinates by the difference of the false eastings
and the y coordinates by the difference of the false northings.  The source
deep-copies `da` and returns the copy; the embedding is pure, so the input
value is unchanged by construction. -/
def align_coordinates (da : Grid) (proj_start proj_final : Projection) :
    Except PyError Grid :=
  if align_bad_vals proj_start proj_final ≠ [] then
    Except.error (PyError.projectionMismatch (align_bad_vals proj_start proj_final))
  else
    Except.ok
      { x := da.x.map (fun v => v - proj_start.x_0 + proj_final.x_0),
        y := da.y.map (fun v => v - proj_start.y_0 + proj_final.y_0),
        data := da.data }

/-- The grid-factor validation of `parse_args`
(src/downscaler/allocate/allocate.py lines 295-302): after argparse parses
`--grid-factor` as an int, a ValueError is raised when `gridfactor % 2 == 0`.
Python's `%` on a positive modulus agrees with Lean's `Int.emod`. -/
def parse_args_gridfactor (gridfactor : Int) : Except PyError Int :=
  if gridfactor % 2 = 0 then Except.error (PyError.invalidGridFactor gridfactor)
  else Except.ok gridfactor

/-- Models the control order of `main`
(src/downscaler/allocate/allocate.py lines 348-394): `parse_args` runs
first, and the input files are only opened after a successful parse.  The
result `true` records that execution reached the data-reading step; on a
parse failure the error propagates with no data read. -/
def main_reads_data (gridfactor : Int) : Except PyError Bool :=
  match parse_args_gridfactor gridfactor with
  | Except.error e => Except.error e
  | Except.ok _ => Except.ok true

/-- Fuel-driven worker splitting a list into contiguous chunks of length `k`
(the blocks of `DataArray.coarsen`).  The fuel is an upper bound on the
number of chunks; `chunks` always supplies enough. -/
def chunksGo (k : Nat) : Nat → List α → List (List α)
  | 0, _ => []
  | _, [] => []
  | fuel + 1, a :: l => ((a :: l).take k) :: chunksGo k fuel ((a :: l).drop k)

/-- Split a list into contiguous chunks of length `k`. -/
def chunks (k : Nat) (l : List α) : List (List α) := chunksGo k l.length l

/-- Fuel-driven worker producing, for a group of `k` rows, the list of k-by-k
windows (flattened row-major), advancing through the columns `k` at a time.
The fuel is bounded by the total number of elements. -/
def colBlocksGo (k : Nat) : Nat → List (List α) → List (List α)
  | 0, _ => []
  | fuel + 1, grp =>
      if grp.all List.isEmpty then []
      else ((grp.map (List.take k)).flatten) :: colBlocksGo k fuel (grp.map (List.drop k))

/-- The k-by-k windows of a group of `k` consecutive rows, each flattened
row-major, in column-block order. -/
def colBlocks (k : Nat) (grp : List (List α)) : List (List α) :=
  colBlocksGo k ((grp.map List.length).sum) grp

/-- Block-partition the data into k-by-k windows and reduce every window
with `agg`: the data part of `da.coarsen(x=k, y=k).reduce(agg)`. -/
def coarsenData (k : Nat) (agg : List Val → Val) (rows : List (List Val)) :
    List (List Val) :=
  (chunks k rows).map (fun grp => (colBlocks k grp).map agg)

/-- Arithmetic mean of a coordinate block: the default `coord_func="mean"`
that `DataArray.coarsen` applies to coordinate arrays. -/
def coordMean (l : List ℚ) : ℚ := l.sum / l.length

/-- `coarsen_finescale_emissions` (src/downscaler/allocate/allocate.py lines
55-93): coarsen the fine grid by `grid_factor` in x and y, reducing each
window with `agg`; the coordinate arrays are reduced blockwise by their mean
(xarray's default `coord_func`).  The COARSEN provenance attribute the source
attaches is descriptive metadata only and is not modelled. -/
def coarsen_finescale_emissions (da_fine : Grid) (grid_factor : Nat)
    (agg : List Val → Val) : Grid :=
  { x := (chunks grid_factor da_fine.x).map coordMean,
    y := (chunks grid_factor da_fine.y).map coordMean,
    data := coarsenData grid_factor agg da_fine.data }

/-- Position of the nearest coordinate within the segment of a strictly
increasing coordinate array that brackets `t`, given `t` is inside the hull.
Follows scipy's nearest rule for `RegularGridInterpolator`: within the
bracketing segment the lower point wins when `t` is at most as close to it
as to the upper point (ties go to the lower index). -/
def nearestInSeg (t : ℚ) : List ℚ → Nat
  | [] => 0
  | [_] => 0
  | c0 :: c1 :: rest =>
      if t ≤ c1 then (if t - c0 ≤ c1 - t then 0 else 1)
      else 1 + nearestInSeg t (c1 :: rest)

/-- Nearest-neighbor index lookup of scipy's `interpn` with
`bounds_error=False, fill_value=nan`, as used by
`DataArray.interp_like(..., method="nearest")`: positions outside the hull
of the source coordinates yield no index (the value becomes NaN). -/
def nearestIdx (cs : List ℚ) (t : ℚ) : Option Nat :=
  match cs with
  | [] => none
  | c :: rest =>
      if t < c then none
      else if (c :: rest).getLastD 0 < t then none
      else some (nearestInSeg t (c :: rest))

/-- `src.interp_like(tgt, method="nearest")`: resample `src` onto the
coordinate positions of `tgt` by per-axis nearest-neighbor lookup, with NaN
at target positions outside the hull of the source coordinates. -/
def interpLike (src tgt : Grid) : Grid :=
  { x := tgt.x,
    y := tgt.y,
    data := tgt.y.map (fun ty => tgt.x.map (fun tx =>
      match nearestIdx src.y ty, nearestIdx src.x tx with
      | some i, some j => cell src.data i j
      | _, _ => Val.nan)) }

/-- The x-edge fills of `_fill_perimeter`
(src/downscaler/allocate/allocate.py lines 47-48), executed first: in every
row, position 0 is overwritten with position 1, then the last position is
overwritten with the second-to-last (reading the already-updated row, as the
in-place DataArray assignment does). -/
def fillColEdgesData (d : List (List Val)) : List (List Val) :=
  (d.map (fun r => r.set 0 (r.getD 1 Val.nan))).map
    (fun r => r.set (r.length - 1) (r.getD (r.length - 2) Val.nan))

/-- The y-edge fills of `_fill_perimeter`
(src/downscaler/allocate/allocate.py lines 49-50), executed second: row 0 is
overwritten with row 1, then the last row is overwritten with the
second-to-last (reading the already-updated rows). -/
def fillRowEdgesData (d : List (List Val)) : List (List Val) :=
  ((d.set 0 (d.getD 1 [])).set ((d.set 0 (d.getD 1 [])).length - 1)
    ((d.set 0 (d.getD 1 [])).getD ((d.set 0 (d.getD 1 [])).length - 2) []))

/-- `_fill_perimeter` (src/downscaler/allocate/allocate.py lines 20-52) on
the data part: the two x-edge fills followed by the two y-edge fills, in
source order. -/
def fillPerimeterData (d : List (List Val)) : List (List Val) :=
  fillRowEdgesData (fillColEdgesData d)

/-- `_fill_perimeter` lifted to a grid (the coordinates are untouched). -/
def fill_perimeter (da : Grid) : Grid := { da with data := fillPerimeterData da.data }

/-- Elementwise division of two grids carrying identical coordinates (the
xarray broadcasting at the division in `fractional_contribution`, where
both operands are on the fine coordinates). -/
def gridDiv (a b : Grid) : Grid :=
  { x := a.x, y := a.y, data := List.zipWith (List.zipWith valDiv) a.data b.data }

/-- Elementwise product of two grids carrying identical coordinates (the
xarray broadcasting at the final combine of `downscale_coarse_emissions`,
where both operands are on the fine coordinates). -/
def gridMul (a b : Grid) : Grid :=
  { x := a.x, y := a.y, data := List.zipWith (List.zipWith valMul) a.data b.data }

/-- `.fillna(0)` on a grid: every NaN data value becomes 0. -/
def gridFillna0 (a : Grid) : Grid := { a with data := a.data.map (List.map fillnaVal) }

/-- `fractional_contribution` (src/downscaler/allocate/allocate.py lines
96-137): regrid the coarse emissions down to the fine coordinates by
nearest neighbor, fill the NaN perimeter, divide the fine emissions by the
regridded coarse emissions elementwise, and replace NaN by 0. -/
def fractional_contribution (da_fine da_coarse : Grid) : Grid :=
  gridFillna0 (gridDiv da_fine (fill_perimeter (interpLike da_coarse da_fine)))

/-- `downscale_coarse_emissions` (src/downscaler/allocate/allocate.py lines
140-224): align the coarse grid's coordinates to the fine grid's false
origin, coarsen the fine reference by `grid_factor` with `agg`, compute the
fractional contribution of the fine grid against its own aggregate, resample
the aligned coarse grid onto the fine coordinates by nearest neighbor with
perimeter fill, and multiply the fraction grid by the resampled grid. -/
def downscale_coarse_emissions (da_fine da_coarse : Grid)
    (proj_fine proj_coarse : Projection) (grid_factor : Nat)
    (agg : List Val → Val) : Except PyError Grid :=
  match align_coordinates da_coarse proj_coarse proj_fine with
  | Except.error e => Except.error e
  | Except.ok da_coarse_aligned =>
      let da_fine_coarsened := coarsen_finescale_emissions da_fine grid_factor agg
      let ref_contrib := fractional_contribution da_fine da_fine_coarsened
      let da_coarse_nn := fill_perimeter (interpLike da_coarse_aligned da_fine)
      Except.ok (gridMul ref_contrib da_coarse_nn)

/-- A CMAQ dataset: named variable grids plus the file-level attributes that
determine the projection (src/downscaler/utils/cmaq.py).  Variables are an
association list, standing for the xarray Dataset mapping. -/
structure Dataset where
  vars : List (String × Grid)
  YCENT : ℚ
  XCENT : ℚ
  P_ALP : ℚ
  P_BET : ℚ
  XORIG : ℚ
  YORIG : ℚ
deriving DecidableEq, Repr

/-- `get_cmaq_projection` (src/downscaler/utils/cmaq.py lines 98-122) for the
default "lambert" projection kind: a Lambert conformal projection with
central latitude/longitude, standard parallels, and false easting/northing
taken (negated for the origins) from the dataset attributes. -/
def get_cmaq_projection (dset : Dataset) : Projection :=
  { central_longitude := dset.XCENT,
    central_latitude := dset.YCENT,
    lat_1 := dset.P_ALP,
    lat_2 := dset.P_BET,
    x_0 := -dset.XORIG,
    y_0 := -dset.YORIG }

/-- The keyword parameter names accepted by `downscale_coarse_emissions`
(src/downscaler/allocate/allocate.py lines 140-142). -/
def downscale_param_names : List String :=
  ["da_fine", "da_coarse", "proj_fine", "proj_coarse", "grid_factor", "agg"]

/-- The keyword argument names `map_downscale` passes to
`downscale_coarse_emissions` (src/downscaler/allocate/allocate.py lines
317-323). -/
def map_downscale_call_kwnames : List String :=
  ["da_ref", "da_target", "proj_ref", "proj_target", "grid_factor"]

/-- `map_downscale` (src/downscaler/allocate/allocate.py lines 315-325):
invoke `downscale_coarse_emissions` on one variable by keyword.  Python
resolves every keyword argument name against the callee's parameter list and
raises TypeError on the first unexpected keyword, before the call body runs;
the embedding performs that resolution explicitly.  Were the names accepted,
the call would select the variable from each dataset (KeyError when absent,
as Python indexing raises) and run the pipeline with the default `np.sum`
aggregation. -/
def map_downscale (var : String) (da_ref da_target : Dataset)
    (proj_ref proj_target : Projection) (grid_factor : Nat) :
    Except PyError Grid :=
  if map_downscale_call_kwnames.all (fun k => downscale_param_names.contains k) then
    match da_ref.vars.lookup var, da_target.vars.lookup var with
    | some g_fine, some g_coarse =>
        downscale_coarse_emissions g_fine g_coarse proj_ref proj_target grid_factor npSum
    | none, _ => Except.error (PyError.keyError var)
    | some _, none => Except.error (PyError.keyError var)
  else
    Except.error
      (PyError.typeError "downscale_coarse_emissions got an unexpected keyword argument")

/-- The per-variable loop of `downscale_vars`
(src/downscaler/allocate/allocate.py line 343): the dict comprehension runs
sequentially and the first exception aborts the whole comprehension with no
partial result. -/
def downscaleVarsGo (da_ref da_target : Dataset) (proj_ref proj_target : Projection)
    (grid_factor : Nat) : List String → Except PyError (List (String × Grid))
  | [] => Except.ok []
  | var :: rest =>
      match map_downscale var da_ref da_target proj_ref proj_target grid_factor with
      | Except.error e => Except.error e
      | Except.ok g =>
          match downscaleVarsGo da_ref da_target proj_ref proj_target grid_factor rest with
          | Except.error e => Except.error e
          | Except.ok out => Except.ok ((var, g) :: out)

/-- `downscale_vars` (src/downscaler/allocate/allocate.py lines 328-345):
compute the two projections once, then map `map_downscale` over the variable
names, collecting name-to-result pairs.  The progress callback only wraps the
iterator for display and is dropped from the embedding. -/
def downscale_vars (data_vars : List String) (da_ref da_target : Dataset)
    (grid_factor : Nat) : Except PyError (List (String × Grid)) :=
  let proj_fine := get_cmaq_projection da_ref
  let proj_coarse := get_cmaq_projection da_target
  downscaleVarsGo da_ref da_target proj_fine proj_coarse grid_factor data_vars

/-- Closed form of the `bad_vals` mismatch list: one entry per differing
non-translation parameter, in proj4 key order. -/
theorem align_bad_vals_spec (ps pf : Projection) :
    align_bad_vals ps pf =
      (if pf.central_longitude ≠ ps.central_longitude then
        [("lon_0", ps.central_longitude, pf.central_longitude)] else []) ++
      (if pf.central_latitude ≠ ps.central_latitude then
        [("lat_0", ps.central_latitude, pf.central_latitude)] else []) ++
      (if pf.lat_1 ≠ ps.lat_1 then [("lat_1", ps.lat_1, pf.lat_1)] else []) ++
      (if pf.lat_2 ≠ ps.lat_2 then [("lat_2", ps.lat_2, pf.lat_2)] else []) := by
  by_cases h1 : pf.central_longitude = ps.central_longitude <;>
    by_cases h2 : pf.central_latitude = ps.central_latitude <;>
      by_cases h3 : pf.lat_1 = ps.lat_1 <;>
        by_cases h4 : pf.lat_2 = ps.lat_2 <;>
          simp [align_bad_vals, Projection.proj4_params, List.lookup, h1, h2, h3, h4]

/-- When every non-translation parameter agrees, `align_coordinates`
succeeds and shifts each coordinate axis by the difference of the false
origins. -/
theorem align_coordinates_ok (g : Grid) (ps pf : Projection)
    (h1 : ps.central_longitude = pf.central_longitude)
    (h2 : ps.central_latitude = pf.central_latitude)
    (h3 : ps.lat_1 = pf.lat_1) (h4 : ps.lat_2 = pf.lat_2) :
    align_coordinates g ps pf =
      Except.ok
        { x := g.x.map (fun v => v + (pf.x_0 - ps.x_0)),
          y := g.y.map (fun v => v + (pf.y_0 - ps.y_0)),
          data := g.data } := by
  have hb : align_bad_vals ps pf = [] := by
    rw [align_bad_vals_spec]; simp [h1, h2, h3, h4]
  have hx : (fun v : ℚ => v - ps.x_0 + pf.x_0) = fun v : ℚ => v + (pf.x_0 - ps.x_0) := by
    funext v; ring
  have hy : (fun v : ℚ => v - ps.y_0 + pf.y_0) = fun v : ℚ => v + (pf.y_0 - ps.y_0) := by
    funext v; ring
  simp [align_coordinates, hb, hx, hy]

/-- An if-guarded singleton is nil exactly when the guard fails. -/
theorem if_singleton_eq_nil {c : Prop} [Decidable c] {a : String × ℚ × ℚ}
    (h : (if c then [a] else []) = []) : ¬c := by
  intro hc
  rw [if_pos hc] at h
  cases h

/-- Membership in an if-guarded singleton. -/
theorem mem_if_singleton {c : Prop} [Decidable c] {x a : String × ℚ × ℚ} :
    x ∈ (if c then [a] else []) ↔ (c ∧ x = a) := by
  split_ifs with hc <;> simp [hc]

/-- One entry of the mismatch list, rephrased from guard-and-tuple form to
the name/value/value/differs form. -/
theorem mismatch_entry_iff {a b : ℚ} {nm name : String} {vs vf : ℚ} :
    (b ≠ a ∧ (name, vs, vf) = (nm, a, b)) ↔
      (name = nm ∧ vs = a ∧ vf = b ∧ vs ≠ vf) := by
  constructor
  · rintro ⟨hne, heq⟩
    obtain ⟨h1, h23⟩ := Prod.mk.injEq _ _ _ _ ▸ heq
    obtain ⟨h2, h3⟩ := Prod.mk.injEq _ _ _ _ ▸ h23
    subst h1; subst h2; subst h3
    exact ⟨rfl, rfl, rfl, fun h => hne h.symm⟩
  · rintro ⟨h1, h2, h3, hne⟩
    subst h1; subst h2; subst h3
    exact ⟨fun h => hne h.symm, rfl⟩

/-- The mismatch list is empty exactly when every non-translation parameter
agrees. -/
theorem align_bad_vals_eq_nil_iff (ps pf : Projection) :
    align_bad_vals ps pf = [] ↔
      (ps.central_longitude = pf.central_longitude ∧
       ps.central_latitude = pf.central_latitude ∧
       ps.lat_1 = pf.lat_1 ∧ ps.lat_2 = pf.lat_2) := by
  rw [align_bad_vals_spec]
  constructor
  · intro h
    rw [List.append_eq_nil, List.append_eq_nil, List.append_eq_nil] at h
    obtain ⟨⟨⟨hA, hB⟩, hC⟩, hD⟩ := h
    refine ⟨?_, ?_, ?_, ?_⟩
    · exact (not_ne_iff.mp (if_singleton_eq_nil hA)).symm
    · exact (not_ne_iff.mp (if_singleton_eq_nil hB)).symm
    · exact (not_ne_iff.mp (if_singleton_eq_nil hC)).symm
    · exact (not_ne_iff.mp (if_singleton_eq_nil hD)).symm
  · rintro ⟨e1, e2, e3, e4⟩
    rw [← e1, ← e2, ← e3, ← e4]
    simp

/-- Membership in the mismatch list characterized parameter by parameter. -/
theorem mem_align_bad_vals (ps pf : Projection) (name : String) (vs vf : ℚ) :
    (name, vs, vf) ∈ align_bad_vals ps pf ↔
      ((name = "lon_0" ∧ vs = ps.central_longitude ∧ vf = pf.central_longitude ∧ vs ≠ vf) ∨
       (name = "lat_0" ∧ vs = ps.central_latitude ∧ vf = pf.central_latitude ∧ vs ≠ vf) ∨
       (name = "lat_1" ∧ vs = ps.lat_1 ∧ vf = pf.lat_1 ∧ vs ≠ vf) ∨
       (name = "lat_2" ∧ vs = ps.lat_2 ∧ vf = pf.lat_2 ∧ vs ≠ vf)) := by
  rw [align_bad_vals_spec]
  simp only [List.mem_append, mem_if_singleton, or_assoc]
  exact or_congr mismatch_entry_iff (or_congr mismatch_entry_iff
    (or_congr mismatch_entry_iff mismatch_entry_iff))

/-- C4: `align_coordinates` raises a projection-mismatch error if and only
if some projection parameter other than the false easting `x_0` and the
false northing `y_0` differs between the two projections, and the error
payload contains exactly the offending parameter names, each with both
values; when all such parameters agree no error is raised. -/
theorem align_mismatch_error_iff_nontranslation_param_differs
    (g : Grid) (ps pf : Projection) :
    ((∃ e, align_coordinates g ps pf = Except.error e) ↔
      (ps.central_longitude ≠ pf.central_longitude ∨
       ps.central_latitude ≠ pf.central_latitude ∨
       ps.lat_1 ≠ pf.lat_1 ∨ ps.lat_2 ≠ pf.lat_2)) ∧
    (∀ bad, align_coordinates g ps pf = Except.error (PyError.projectionMismatch bad) →
      ∀ name vs vf, (name, vs, vf) ∈ bad ↔
        ((name = "lon_0" ∧ vs = ps.central_longitude ∧ vf = pf.central_longitude ∧ vs ≠ vf) ∨
         (name = "lat_0" ∧ vs = ps.central_latitude ∧ vf = pf.central_latitude ∧ vs ≠ vf) ∨
         (name = "lat_1" ∧ vs = ps.lat_1 ∧ vf = pf.lat_1 ∧ vs ≠ vf) ∨
         (name = "lat_2" ∧ vs = ps.lat_2 ∧ vf = pf.lat_2 ∧ vs ≠ vf))) := by
  constructor
  · by_cases hb : align_bad_vals ps pf = []
    · have hok : ∀ e, align_coordinates g ps pf ≠ Except.error e := by
        intro e
        simp [align_coordinates, hb]
      rw [align_bad_vals_eq_nil_iff] at hb
      constructor
      · rintro ⟨e, he⟩
        exact absurd he (hok e)
      · intro hmm
        rcases hmm with h | h | h | h
        · exact absurd hb.1 h
        · exact absurd hb.2.1 h
        · exact absurd hb.2.2.1 h
        · exact absurd hb.2.2.2 h
    · have herr : align_coordinates g ps pf =
          Except.error (PyError.projectionMismatch (align_bad_vals ps pf)) := by
        simp [align_coordinates, hb]
      have hmm : ps.central_longitude ≠ pf.central_longitude ∨
          ps.central_latitude ≠ pf.central_latitude ∨
          ps.lat_1 ≠ pf.lat_1 ∨ ps.lat_2 ≠ pf.lat_2 := by
        by_contra hcon
        push_neg at hcon
        exact hb ((align_bad_vals_eq_nil_iff ps pf).mpr
          ⟨hcon.1, hcon.2.1, hcon.2.2.1, hcon.2.2.2⟩)
      exact ⟨fun _ => hmm, fun _ => ⟨_, herr⟩⟩
  · intro bad hbad name vs vf
    have hb : align_bad_vals ps pf ≠ [] := by
      intro hnil
      simp [align_coordinates, hnil] at hbad
    have herr : align_coordinates g ps pf =
        Except.error (PyError.projectionMismatch (align_bad_vals ps pf)) := by
      simp [align_coordinates, hb]
    rw [herr] at hbad
    have hb2 : bad = align_bad_vals ps pf := by
      injection hbad with h
      injection h with h2
      exact h2.symm
  
    rw [hb2]
    exact mem_align_bad_vals ps pf name vs vf

/-- C5: on success (all non-translation parameters equal),
`align_coordinates` returns a grid with the data unchanged, the x
coordinates each shifted by (target false easting - source false easting)
and the y coordinates each shifted by (target false northing - source false
northing); the embedding is a pure function, so the input grid value is
unchanged. -/
theorem align_success_shifts_coords_data_unchanged (g : Grid) (ps pf : Projection)
    (h1 : ps.central_longitude = pf.central_longitude)
    (h2 : ps.central_latitude = pf.central_latitude)
    (h3 : ps.lat_1 = pf.lat_1) (h4 : ps.lat_2 = pf.lat_2) :
    align_coordinates g ps pf =
      Except.ok
        { x := g.x.map (fun v => v + (pf.x_0 - ps.x_0)),
          y := g.y.map (fun v => v + (pf.y_0 - ps.y_0)),
          data := g.data } :=
  align_coordinates_ok g ps pf h1 h2 h3 h4

/-- Example grid used for concrete witnesses. -/
def gridEx : Grid :=
  { x := [0, 1], y := [0, 1],
    data := [[Val.num 1, Val.num 2], [Val.num 3, Val.num 4]] }

/-- Example projection (typical CMAQ Lambert parameters). -/
def projEx : Projection :=
  { central_longitude := -97, central_latitude := 40, lat_1 := 33, lat_2 := 45,
    x_0 := 2952000, y_0 := 2772000 }

/-- `projEx` translated to a different false origin (compatible). -/
def projExShift : Projection := { projEx with x_0 := 10, y_0 := 20 }

/-- Witness for C5 at a concrete grid and a compatible projection pair. -/
theorem align_success_shifts_coords_witness :
    projEx.central_longitude = projExShift.central_longitude ∧
    align_coordinates gridEx projEx projExShift =
      Except.ok
        { x := gridEx.x.map (fun v => v + (projExShift.x_0 - projEx.x_0)),
          y := gridEx.y.map (fun v => v + (projExShift.y_0 - projEx.y_0)),
          data := gridEx.data } :=
  ⟨rfl, align_success_shifts_coords_data_unchanged gridEx projEx projExShift rfl rfl rfl rfl⟩

/-- Witness for C4 at a concrete input: projections differing only in the
first standard parallel produce a mismatch error whose payload holds that
parameter with both values. -/
theorem align_mismatch_error_witness :
    ("lat_1", (33 : ℚ), (34 : ℚ)) ∈ align_bad_vals projEx { projEx with lat_1 := 34 } :=
  ((align_mismatch_error_iff_nontranslation_param_differs gridEx projEx
      { projEx with lat_1 := 34 }).2
    (align_bad_vals projEx { projEx with lat_1 := 34 }) rfl
    "lat_1" 33 34).mpr (by decide)

/-- C3 counterexample: the grid factor -3 is not a positive odd integer, yet
`parse_args` accepts it: the only check is `gridfactor % 2 == 0`, and
Python's `%` (like Lean's `Int.emod`) returns 1 for -3 modulo 2. -/
theorem parse_args_accepts_negative_odd_factor :
    parse_args_gridfactor (-3) = Except.ok (-3) ∧ ¬(0 < (-3 : Int)) :=
  ⟨rfl, by decide⟩

/-- C3 (amended): every even grid-factor value, including zero and negative
even values, is rejected by `parse_args` before any data is read and before
any processing starts; odd values, positive or negative, are accepted. -/
theorem parse_args_rejects_even_factor_before_read (g : Int) (h : g % 2 = 0) :
    main_reads_data g = Except.error (PyError.invalidGridFactor g) := by
  simp [main_reads_data, parse_args_gridfactor, h]

/-- Witness for the amended C3 at the spec's concrete example factor 4. -/
theorem parse_args_rejects_even_factor_witness :
    (4 : Int) % 2 = 0 ∧ main_reads_data 4 = Except.error (PyError.invalidGridFactor 4) :=
  ⟨by decide, parse_args_rejects_even_factor_before_read 4 (by decide)⟩

/-- C1: for compatible projections and an odd factor,
`downscale_coarse_emissions` returns exactly the elementwise product of the
fractional contribution of the fine grid against its own aggregate
(coarsened by the factor) and the coarse grid aligned into the fine grid's
false-origin convention, nearest-neighbor-resampled onto the fine
coordinates, and perimeter-corrected; the definition performs the steps in
source order: align, aggregate, allocate, resample, combine. -/
theorem downscale_composes_align_aggregate_allocate_resample_combine
    (da_fine da_coarse : Grid) (proj_fine proj_coarse : Projection)
    (grid_factor : Nat) (agg : List Val → Val)
    (hodd : Odd grid_factor)
    (h1 : proj_coarse.central_longitude = proj_fine.central_longitude)
    (h2 : proj_coarse.central_latitude = proj_fine.central_latitude)
    (h3 : proj_coarse.lat_1 = proj_fine.lat_1)
    (h4 : proj_coarse.lat_2 = proj_fine.lat_2) :
    downscale_coarse_emissions da_fine da_coarse proj_fine proj_coarse grid_factor agg =
      Except.ok (gridMul
        (fractional_contribution da_fine
          (coarsen_finescale_emissions da_fine grid_factor agg))
        (fill_perimeter (interpLike
          { x := da_coarse.x.map (fun v => v + (proj_fine.x_0 - proj_coarse.x_0)),
            y := da_coarse.y.map (fun v => v + (proj_fine.y_0 - proj_coarse.y_0)),
            data := da_coarse.data } da_fine))) := by
  unfold downscale_coarse_emissions
  rw [align_coordinates_ok da_coarse proj_coarse proj_fine h1 h2 h3 h4]

/-- Witness for C1 at concrete grids, factor 3, sum aggregation, and a
compatible projection pair. -/
theorem downscale_composes_witness :
    Odd 3 ∧
    downscale_coarse_emissions gridEx gridEx projEx projExShift 3 npSum =
      Except.ok (gridMul
        (fractional_contribution gridEx (coarsen_finescale_emissions gridEx 3 npSum))
        (fill_perimeter (interpLike
          { x := gridEx.x.map (fun v => v + (projEx.x_0 - projExShift.x_0)),
            y := gridEx.y.map (fun v => v + (projEx.y_0 - projExShift.y_0)),
            data := gridEx.data } gridEx))) :=
  ⟨by decide, downscale_composes_align_aggregate_allocate_resample_combine
    gridEx gridEx projEx projExShift 3 npSum (by decide) rfl rfl rfl rfl⟩

/-- C2: every run of `downscale_vars` with at least one variable aborts with
a TypeError: `map_downscale` passes the keyword arguments
da_ref/da_target/proj_ref/proj_target, none of which is a parameter of
`downscale_coarse_emissions` (whose parameters are named
da_fine/da_coarse/proj_fine/proj_coarse), so no variable is ever
downscaled and no mapping is returned. -/
theorem map_downscale_typeerror_aborts_every_run
    (var : String) (rest : List String) (da_ref da_target : Dataset) (k : Nat) :
    downscale_vars (var :: rest) da_ref da_target k =
      Except.error
        (PyError.typeError "downscale_coarse_emissions got an unexpected keyword argument") := by
  have hkw : ¬∀ x ∈ map_downscale_call_kwnames, x ∈ downscale_param_names := by decide
  simp [downscale_vars, downscaleVarsGo, map_downscale, hkw]

/-- Concatenating the chunks of a list restores the list. -/
theorem chunksGo_flatten {α : Type} (k : Nat) (hk : k ≠ 0) :
    ∀ (fuel : Nat) (l : List α), l.length ≤ fuel → (chunksGo k fuel l).flatten = l := by
  intro fuel
  induction fuel with
  | zero =>
      intro l hl
      have : l = [] := List.length_eq_zero.mp (Nat.le_zero.mp hl)
      subst this
      rfl
  | succ fuel ih =>
      intro l hl
      cases l with
      | nil => rfl
      | cons a l =>
          have hdrop : ((a :: l).drop k).length ≤ fuel := by
            rw [List.length_drop]
            simp only [List.length_cons] at hl ⊢
            omega
          calc (chunksGo k (fuel + 1) (a :: l)).flatten
              = (a :: l).take k ++ (chunksGo k fuel ((a :: l).drop k)).flatten := rfl
            _ = (a :: l).take k ++ (a :: l).drop k := by rw [ih _ hdrop]
            _ = a :: l := List.take_append_drop k (a :: l)

/-- Concatenating the chunks of a list restores the list. -/
theorem chunks_flatten {α : Type} (k : Nat) (hk : k ≠ 0) (l : List α) :
    (chunks k l).flatten = l :=
  chunksGo_flatten k hk l.length l le_rfl

/-- Sums of two maps combine into the sum of the pointwise sums. -/
theorem sum_map_add_sum_map (f g : List Val → Val) :
    ∀ l : List (List Val),
      (l.map f).sum + (l.map g).sum = (l.map (fun r => f r + g r)).sum := by
  intro l
  induction l with
  | nil => simp
  | cons a l ih =>
      simp only [List.map_cons, List.sum_cons]
      rw [add_add_add_comm, ih]

/-- Dropping a prefix from every row does not increase the total length. -/
theorem total_length_drop_le {α : Type} (k : Nat) (grp : List (List α)) :
    ((grp.map (List.drop k)).map List.length).sum ≤ (grp.map List.length).sum := by
  induction grp with
  | nil => simp
  | cons a grp ih =>
      simp only [List.map_cons, List.sum_cons, List.length_drop]
      exact Nat.add_le_add (Nat.sub_le _ _) ih

/-- Dropping a nonempty prefix from every row of a group that still has a
nonempty row strictly decreases the total length. -/
theorem total_length_drop_lt {α : Type} (k : Nat) (hk : k ≠ 0) :
    ∀ grp : List (List α), ¬grp.all List.isEmpty = true →
      ((grp.map (List.drop k)).map List.length).sum < (grp.map List.length).sum := by
  intro grp
  induction grp with
  | nil => intro h; exact absurd rfl h
  | cons a grp ih =>
      intro h
      simp only [List.map_cons, List.sum_cons, List.length_drop]
      by_cases ha : a.isEmpty = true
      · have hgrp : ¬grp.all List.isEmpty = true := by
          intro hg
          exact h (by simp [List.all_cons, ha, hg])
        have ha' : a = [] := List.isEmpty_iff.mp ha
        subst ha'
        simpa using Nat.add_lt_add_left (ih hgrp) 0
      · have ha' : a ≠ [] := fun he => ha (by simp [he])
        have halen : 0 < a.length := List.length_pos.mpr ha'
        have h1 : a.length - k < a.length := by omega
        exact Nat.add_lt_add_of_lt_of_le h1 (total_length_drop_le k grp)

/-- The row sums of a group are preserved (in total) by the column-block
decomposition. -/
theorem colBlocksGo_sum (k : Nat) (hk : k ≠ 0) :
    ∀ (fuel : Nat) (grp : List (List Val)), (grp.map List.length).sum ≤ fuel →
      ((colBlocksGo k fuel grp).map List.sum).sum = (grp.map List.sum).sum := by
  intro fuel
  induction fuel with
  | zero =>
      intro grp hl
      have hz : (grp.map List.length).sum = 0 := Nat.le_zero.mp hl
      have hall : ∀ r ∈ grp, r = [] := by
        intro r hr
        have : r.length = 0 :=
          List.sum_eq_zero_iff.mp hz r.length (List.mem_map_of_mem List.length hr)
        exact List.length_eq_zero.mp this
      have : (grp.map List.sum).sum = 0 := by
        apply List.sum_eq_zero
        intro x hx
        obtain ⟨r, hr, hrx⟩ := List.mem_map.mp hx
        rw [hall r hr] at hrx
        exact hrx.symm
      simp [colBlocksGo, this]
  | succ fuel ih =>
      intro grp hl
      by_cases hall : grp.all List.isEmpty = true
      · have hempty : ∀ r ∈ grp, r = [] := by
          intro r hr
          exact List.isEmpty_iff.mp (List.all_eq_true.mp hall r hr)
        have : (grp.map List.sum).sum = 0 := by
          apply List.sum_eq_zero
          intro x hx
          obtain ⟨r, hr, hrx⟩ := List.mem_map.mp hx
          rw [hempty r hr] at hrx
          exact hrx.symm
        simp [colBlocksGo, hall, this]
      · have hstep : colBlocksGo k (fuel + 1) grp =
            ((grp.map (List.take k)).flatten) :: colBlocksGo k fuel (grp.map (List.drop k)) := by
          simp [colBlocksGo, hall]
        have hfuel : ((grp.map (List.drop k)).map List.length).sum ≤ fuel := by
          have := total_length_drop_lt k hk grp hall
          omega
        calc ((colBlocksGo k (fuel + 1) grp).map List.sum).sum
            = (grp.map (List.take k)).flatten.sum +
                ((colBlocksGo k fuel (grp.map (List.drop k))).map List.sum).sum := by
              rw [hstep]; simp
          _ = ((grp.map (List.take k)).map List.sum).sum +
                ((grp.map (List.drop k)).map List.sum).sum := by
              rw [List.sum_flatten, ih _ hfuel]
          _ = (grp.map (fun r => (r.take k).sum)).sum +
                (grp.map (fun r => (r.drop k).sum)).sum := by
              rw [List.map_map, List.map_map]; rfl
          _ = (grp.map (fun r => (r.take k).sum + (r.drop k).sum)).sum :=
              sum_map_add_sum_map _ _ grp
          _ = (grp.map List.sum).sum := by
              congr 1
              apply List.map_congr_left
              intro r _
              rw [← List.sum_append, List.take_append_drop]

/-- The row sums of a group are preserved (in total) by `colBlocks`. -/
theorem colBlocks_sum (k : Nat) (hk : k ≠ 0) (grp : List (List Val)) :
    ((colBlocks k grp).map List.sum).sum = (grp.map List.sum).sum :=
  colBlocksGo_sum k hk _ grp le_rfl

/-- Total of all data values of a grid. -/
def gridTotal (g : Grid) : Val := (g.data.map List.sum).sum

/-- C6: for every fine grid whose x and y dimension lengths are evenly
divisible by the odd factor, the total of all values of
`coarsen_finescale_emissions` with sum aggregation equals the total of all
values of the fine grid, exactly. -/
theorem coarsen_sum_aggregation_conserves_total (F : Grid) (k : Nat)
    (hodd : Odd k) (hws : F.WellShaped)
    (hdy : k ∣ F.y.length) (hdx : k ∣ F.x.length) :
    gridTotal (coarsen_finescale_emissions F k npSum) = gridTotal F := by
  have hk : k ≠ 0 := by
    rcases hodd with ⟨m, hm⟩
    omega
  show ((coarsenData k npSum F.data).map List.sum).sum = (F.data.map List.sum).sum
  unfold coarsenData
  rw [List.map_map]
  have hgrp : ∀ grp ∈ chunks k F.data,
      (List.sum ∘ fun grp => (colBlocks k grp).map npSum) grp = (grp.map List.sum).sum := by
    intro grp _
    show ((colBlocks k grp).map npSum).sum = (grp.map List.sum).sum
    have : (colBlocks k grp).map npSum = (colBlocks k grp).map List.sum := rfl
    rw [this]
    exact colBlocks_sum k hk grp
  rw [List.map_congr_left hgrp]
  calc ((chunks k F.data).map (fun grp => (grp.map List.sum).sum)).sum
      = (((chunks k F.data).map (List.map List.sum)).map List.sum).sum := by
        rw [List.map_map]; rfl
    _ = ((chunks k F.data).map (List.map List.sum)).flatten.sum := List.sum_flatten.symm
    _ = ((chunks k F.data).flatten.map List.sum).sum := by rw [List.map_flatten]
    _ = (F.data.map List.sum).sum := by rw [chunks_flatten k hk]

/-- Witness for C6: a concrete 2-by-2 grid with factor 1. -/
theorem coarsen_sum_conserves_total_witness :
    Odd 1 ∧ gridEx.WellShaped ∧ (1 ∣ gridEx.y.length) ∧ (1 ∣ gridEx.x.length) ∧
    gridTotal (coarsen_finescale_emissions gridEx 1 npSum) = gridTotal gridEx :=
  ⟨by decide, by decide, by decide, by decide,
    coarsen_sum_aggregation_conserves_total gridEx 1 (by decide) (by decide)
      (by decide) (by decide)⟩

/-- `getD` after `set` at the written index. -/
theorem getD_set_self {α : Type} (l : List α) (n : Nat) (a d : α) (h : n < l.length) :
    (l.set n a).getD n d = a := by
  simp [List.getD_eq_getElem?_getD, List.getElem?_set_self, h]

/-- `getD` after `set` at a different index. -/
theorem getD_set_ne {α : Type} (l : List α) (m n : Nat) (a d : α) (h : m ≠ n) :
    (l.set n a).getD m d = l.getD m d := by
  simp [List.getD_eq_getElem?_getD, List.getElem?_set_ne (Ne.symm h)]

/-- `getD` of a mapped list, in range. -/
theorem getD_map {α β : Type} (l : List α) (f : α → β) (i : Nat) (d : β) (d' : α)
    (h : i < l.length) : (l.map f).getD i d = f (l.getD i d') := by
  simp [List.getD_eq_getElem?_getD, List.getElem?_map, List.getElem?_eq_getElem h]

/-- `getD` in range is `getElem`. -/
theorem getD_of_lt {α : Type} (l : List α) (d : α) (i : Nat) (h : i < l.length) :
    l.getD i d = l[i] := by
  simp [List.getD_eq_getElem?_getD, List.getElem?_eq_getElem h]

/-- An in-range `getD` value is a member. -/
theorem getD_mem {α : Type} (l : List α) (d : α) (i : Nat) (h : i < l.length) :
    l.getD i d ∈ l := by
  rw [getD_of_lt l d i h]
  exact List.getElem_mem h

/-- The index an edge fill reads from, for an axis of `n` positions: position
0 is overwritten from position 1 first, then position n-1 is overwritten from
the already-updated position n-2 (which, when n = 2, already holds the value
of position 1). -/
def edgeSrc (n i : Nat) : Nat :=
  if i = n - 1 then (if n - 2 = 0 then 1 else n - 2)
  else if i = 0 then 1 else i

theorem edgeSrc_lt (n i : Nat) (hn : 2 ≤ n) (hi : i < n) : edgeSrc n i < n := by
  unfold edgeSrc
  split_ifs <;> omega

theorem edgeSrc_idem (n i : Nat) (hn : 2 ≤ n) (hi : i < n) :
    edgeSrc n (edgeSrc n i) = edgeSrc n i := by
  unfold edgeSrc
  split_ifs <;> omega

theorem edgeSrc_interior (n i : Nat) (h1 : 1 ≤ i) (h2 : i + 1 < n) : edgeSrc n i = i := by
  unfold edgeSrc
  split_ifs <;> omega

/-- Pointwise description of the two sequential edge fills of one axis list:
position 0 is set to position 1, then the last position is set to the
already-updated second-to-last. -/
theorem set_edges_getD {α : Type} (r : List α) (d : α) (n j : Nat)
    (hlen : r.length = n) (hn : 2 ≤ n) (hj : j < n) :
    ((r.set 0 (r.getD 1 d)).set ((r.set 0 (r.getD 1 d)).length - 1)
        ((r.set 0 (r.getD 1 d)).getD ((r.set 0 (r.getD 1 d)).length - 2) d)).getD j d =
      r.getD (edgeSrc n j) d := by
  have hr1len : (r.set 0 (r.getD 1 d)).length = n := by rw [List.length_set, hlen]
  have hr1 : ∀ m, m < n → (r.set 0 (r.getD 1 d)).getD m d =
      r.getD (if m = 0 then 1 else m) d := by
    intro m hm
    by_cases hm0 : m = 0
    · subst hm0
      simp only [if_pos rfl]
      exact getD_set_self r 0 (r.getD 1 d) d (by omega)
    · rw [if_neg hm0]
      exact getD_set_ne r m 0 (r.getD 1 d) d hm0
  rw [hr1len]
  by_cases hjlast : j = n - 1
  · subst hjlast
    rw [getD_set_self _ _ _ _ (by omega), hr1 (n - 2) (by omega)]
    unfold edgeSrc
    by_cases h20 : n - 2 = 0 <;> simp [h20]
  · rw [getD_set_ne _ _ _ _ _ hjlast, hr1 j hj]
    unfold edgeSrc
    rw [if_neg hjlast]

theorem fillColEdgesData_length (d : List (List Val)) :
    (fillColEdgesData d).length = d.length := by
  simp [fillColEdgesData]

theorem fillColEdgesData_rect (d : List (List Val)) (n : Nat)
    (hrect : ∀ r ∈ d, r.length = n) :
    ∀ r ∈ fillColEdgesData d, r.length = n := by
  intro r hr
  unfold fillColEdgesData at hr
  obtain ⟨r1, hr1, hr1e⟩ := List.mem_map.mp hr
  obtain ⟨r0, hr0, hr0e⟩ := List.mem_map.mp hr1
  rw [← hr1e, ← hr0e]
  simp [hrect r0 hr0]

/-- Pointwise description of the x-edge fills: within each row the value at
column `j` comes from column `edgeSrc n j` of the original row. -/
theorem fillColEdgesData_cell (d : List (List Val)) (n : Nat)
    (hrect : ∀ r ∈ d, r.length = n) (hn : 2 ≤ n) (i j : Nat)
    (hi : i < d.length) (hj : j < n) :
    cell (fillColEdgesData d) i j = cell d i (edgeSrc n j) := by
  unfold cell fillColEdgesData
  rw [List.map_map]
  rw [getD_map d _ i [] [] hi]
  have hrmem : d.getD i [] ∈ d := getD_mem d [] i hi
  have hrlen : (d.getD i []).length = n := hrect _ hrmem
  exact set_edges_getD (d.getD i []) Val.nan n j hrlen hn hj

theorem fillRowEdgesData_length (d : List (List Val)) :
    (fillRowEdgesData d).length = d.length := by
  simp [fillRowEdgesData]

/-- Every row of the y-edge fill result is a row of the input (the two
overwrites copy existing rows), provided there are at least two rows. -/
theorem fillRowEdgesData_mem (d : List (List Val)) (hL : 2 ≤ d.length) :
    ∀ r ∈ fillRowEdgesData d, r ∈ d := by
  intro r hr
  unfold fillRowEdgesData at hr
  rcases List.mem_or_eq_of_mem_set hr with hr3 | hre
  · rcases List.mem_or_eq_of_mem_set hr3 with hr0 | hre0
    · exact hr0
    · rw [hre0]
      exact getD_mem d [] 1 (by omega)
  · rw [hre]
    rcases List.mem_or_eq_of_mem_set
        (getD_mem (d.set 0 (d.getD 1 [])) []
          ((d.set 0 (d.getD 1 [])).length - 2) (by rw [List.length_set]; omega)) with
      hmem | heq
    · exact hmem
    · rw [heq]
      exact getD_mem d [] 1 (by omega)

/-- Pointwise description of the y-edge fills: row `i` of the result is row
`edgeSrc L i` of the input. -/
theorem fillRowEdgesData_getD (d : List (List Val)) (i : Nat)
    (hL : 2 ≤ d.length) (hi : i < d.length) :
    (fillRowEdgesData d).getD i [] = d.getD (edgeSrc d.length i) [] := by
  unfold fillRowEdgesData
  have h3len : (d.set 0 (d.getD 1 [])).length = d.length := List.length_set d 0 _
  have hr1 : ∀ m, m < d.length → (d.set 0 (d.getD 1 [])).getD m [] =
      d.getD (if m = 0 then 1 else m) [] := by
    intro m hm
    by_cases hm0 : m = 0
    · subst hm0
      simp only [if_pos rfl]
      exact getD_set_self d 0 (d.getD 1 []) [] (by omega)
    · rw [if_neg hm0]
      exact getD_set_ne d m 0 (d.getD 1 []) [] hm0
  rw [h3len]
  by_cases hlast : i = d.length - 1
  · subst hlast
    rw [getD_set_self _ _ _ _ (by rw [h3len]; omega), hr1 (d.length - 2) (by omega)]
    unfold edgeSrc
    by_cases h20 : d.length - 2 = 0 <;> simp [h20]
  · rw [getD_set_ne _ _ _ _ _ hlast, hr1 i hi]
    unfold edgeSrc
    rw [if_neg hlast]

/-- Pointwise description of `_fill_perimeter`: the value at (i, j) of the
filled grid is the value of the input at the edge-source indices. -/
theorem fillPerimeterData_cell (d : List (List Val)) (n : Nat)
    (hrect : ∀ r ∈ d, r.length = n) (hL : 2 ≤ d.length) (hn : 2 ≤ n)
    (i j : Nat) (hi : i < d.length) (hj : j < n) :
    cell (fillPerimeterData d) i j = cell d (edgeSrc d.length i) (edgeSrc n j) := by
  unfold fillPerimeterData
  have h2len : (fillColEdgesData d).length = d.length := fillColEdgesData_length d
  have hcell : cell (fillRowEdgesData (fillColEdgesData d)) i j =
      cell (fillColEdgesData d) (edgeSrc d.length i) j := by
    unfold cell
    rw [fillRowEdgesData_getD (fillColEdgesData d) i (by omega) (by omega), h2len]
  rw [hcell]
  exact fillColEdgesData_cell d n hrect hn (edgeSrc d.length i) j
    (edgeSrc_lt d.length i hL hi) hj

theorem fillPerimeterData_length (d : List (List Val)) :
    (fillPerimeterData d).length = d.length := by
  unfold fillPerimeterData
  rw [fillRowEdgesData_length, fillColEdgesData_length]

theorem fillPerimeterData_rect (d : List (List Val)) (n : Nat)
    (hrect : ∀ r ∈ d, r.length = n) (hL : 2 ≤ d.length) :
    ∀ r ∈ fillPerimeterData d, r.length = n := by
  intro r hr
  unfold fillPerimeterData at hr
  have := fillRowEdgesData_mem (fillColEdgesData d)
    (by rw [fillColEdgesData_length]; omega) r hr
  exact fillColEdgesData_rect d n hrect r this

/-- Extensionality for rectangular lists of lists via `cell`. -/
theorem matrix_ext (a b : List (List Val)) (hlen : a.length = b.length)
    (hrow : ∀ i, i < a.length → (a.getD i []).length = (b.getD i []).length)
    (hcell : ∀ i j, i < a.length → j < (a.getD i []).length → cell a i j = cell b i j) :
    a = b := by
  apply List.ext_getElem hlen
  intro i h1 h2
  have hrl : a[i].length = b[i].length := by
    have := hrow i h1
    rwa [getD_of_lt a [] i h1, getD_of_lt b [] i h2] at this
  apply List.ext_getElem hrl
  intro j hj1 hj2
  have := hcell i j h1 (by rwa [getD_of_lt a [] i h1])
  unfold cell at this
  rwa [getD_of_lt a [] i h1, getD_of_lt b [] i h2,
    getD_of_lt _ Val.nan j hj1, getD_of_lt _ Val.nan j hj2] at this

theorem edgeSrc_zero (L : Nat) (h : 2 ≤ L) : edgeSrc L 0 = 1 := by
  unfold edgeSrc
  split_ifs <;> omega

/-- C8: `_fill_perimeter` performs the x-edge fills first and the y-edge
fills second; every cell of the result takes the value of the input at the
edge-source indices, the top and bottom result rows equal rows of the
x-filled intermediate grid (so each corner is overwritten twice and the
y-fill value wins), and cells not on the perimeter are unchanged. -/
theorem fill_perimeter_x_edges_then_y_edges (g : Grid) (hws : g.WellShaped)
    (h2y : 2 ≤ g.y.length) (h2x : 2 ≤ g.x.length) :
    (fill_perimeter g).data = fillRowEdgesData (fillColEdgesData g.data) ∧
    (∀ i j, i < g.y.length → j < g.x.length →
      cell (fill_perimeter g).data i j =
        cell g.data (edgeSrc g.y.length i) (edgeSrc g.x.length j)) ∧
    (∀ j, cell (fill_perimeter g).data 0 j = cell (fillColEdgesData g.data) 1 j) ∧
    (∀ j, cell (fill_perimeter g).data (g.y.length - 1) j =
      cell (fillColEdgesData g.data) (edgeSrc g.y.length (g.y.length - 1)) j) ∧
    (∀ i j, 1 ≤ i → i + 1 < g.y.length → 1 ≤ j → j + 1 < g.x.length →
      cell (fill_perimeter g).data i j = cell g.data i j) := by
  obtain ⟨hlen, hrect⟩ := hws
  have hL : 2 ≤ g.data.length := by omega
  have hpoint : ∀ i j, i < g.y.length → j < g.x.length →
      cell (fill_perimeter g).data i j =
        cell g.data (edgeSrc g.y.length i) (edgeSrc g.x.length j) := by
    intro i j hi hj
    have := fillPerimeterData_cell g.data g.x.length hrect hL h2x i j (by omega) hj
    rw [hlen] at this
    exact this
  refine ⟨rfl, hpoint, ?_, ?_, ?_⟩
  · intro j
    show cell (fillRowEdgesData (fillColEdgesData g.data)) 0 j = _
    unfold cell
    rw [fillRowEdgesData_getD (fillColEdgesData g.data) 0
        (by rw [fillColEdgesData_length]; omega) (by rw [fillColEdgesData_length]; omega),
      fillColEdgesData_length, edgeSrc_zero g.data.length hL]
  · intro j
    show cell (fillRowEdgesData (fillColEdgesData g.data)) (g.y.length - 1) j = _
    unfold cell
    rw [fillRowEdgesData_getD (fillColEdgesData g.data) (g.y.length - 1)
        (by rw [fillColEdgesData_length]; omega) (by rw [fillColEdgesData_length]; omega),
      fillColEdgesData_length, hlen]
  · intro i j hi1 hi2 hj1 hj2
    rw [hpoint i j (by omega) (by omega),
      edgeSrc_interior g.y.length i hi1 hi2, edgeSrc_interior g.x.length j hj1 hj2]

/-- Example 3-by-3 grid with distinct values, for perimeter-fill witnesses. -/
def gridEx3 : Grid :=
  { x := [0, 1, 2], y := [0, 1, 2],
    data := [[Val.num 1, Val.num 2, Val.num 3],
             [Val.num 4, Val.num 5, Val.num 6],
             [Val.num 7, Val.num 8, Val.num 9]] }

/-- Witness for C8 at a concrete 3-by-3 grid: the corner cell takes the
value at the edge-source indices (1, 1). -/
theorem fill_perimeter_x_edges_then_y_edges_witness :
    gridEx3.WellShaped ∧ 2 ≤ gridEx3.y.length ∧ 2 ≤ gridEx3.x.length ∧
    cell (fill_perimeter gridEx3).data 0 0 =
      cell gridEx3.data (edgeSrc gridEx3.y.length 0) (edgeSrc gridEx3.x.length 0) :=
  ⟨by decide, by decide, by decide,
    (fill_perimeter_x_edges_then_y_edges gridEx3 (by decide) (by decide) (by decide)).2.1
      0 0 (by decide) (by decide)⟩

/-- C9: applying `_fill_perimeter` twice yields exactly the same grid as
applying it once, for every well-shaped grid with at least two coordinate
points on each spatial axis. -/
theorem fill_perimeter_idempotent (g : Grid) (hws : g.WellShaped)
    (h2y : 2 ≤ g.y.length) (h2x : 2 ≤ g.x.length) :
    fill_perimeter (fill_perimeter g) = fill_perimeter g := by
  obtain ⟨hlen, hrect⟩ := hws
  have hL : 2 ≤ g.data.length := by omega
  have hrect1 : ∀ r ∈ fillPerimeterData g.data, r.length = g.x.length :=
    fillPerimeterData_rect g.data g.x.length hrect hL
  have hlen1 : (fillPerimeterData g.data).length = g.data.length :=
    fillPerimeterData_length g.data
  have hdata : fillPerimeterData (fillPerimeterData g.data) = fillPerimeterData g.data := by
    apply matrix_ext
    · rw [fillPerimeterData_length, hlen1]
    · intro i hi
      rw [fillPerimeterData_length, hlen1] at hi
      have h1 : (fillPerimeterData (fillPerimeterData g.data)).getD i [] ∈
          fillPerimeterData (fillPerimeterData g.data) :=
        getD_mem _ [] i (by rw [fillPerimeterData_length, hlen1]; omega)
      have h2 : (fillPerimeterData g.data).getD i [] ∈ fillPerimeterData g.data :=
        getD_mem _ [] i (by omega)
      rw [fillPerimeterData_rect (fillPerimeterData g.data) g.x.length hrect1
          (by omega) _ h1,
        hrect1 _ h2]
    · intro i j hi hj
      rw [fillPerimeterData_length, hlen1] at hi
      have hjx : j < g.x.length := by
        have h1 : (fillPerimeterData (fillPerimeterData g.data)).getD i [] ∈
            fillPerimeterData (fillPerimeterData g.data) :=
          getD_mem _ [] i (by rw [fillPerimeterData_length, hlen1]; omega)
        rw [fillPerimeterData_rect (fillPerimeterData g.data) g.x.length hrect1
            (by omega) _ h1] at hj
        exact hj
      have step1 : cell (fillPerimeterData (fillPerimeterData g.data)) i j =
          cell (fillPerimeterData g.data)
            (edgeSrc (fillPerimeterData g.data).length i) (edgeSrc g.x.length j) :=
        fillPerimeterData_cell (fillPerimeterData g.data) g.x.length hrect1
          (by omega) h2x i j (by omega) hjx
      rw [hlen1] at step1
      have step2 : cell (fillPerimeterData g.data)
            (edgeSrc g.data.length i) (edgeSrc g.x.length j) =
          cell g.data (edgeSrc g.data.length (edgeSrc g.data.length i))
            (edgeSrc g.x.length (edgeSrc g.x.length j)) := by
        have := fillPerimeterData_cell g.data g.x.length hrect hL h2x
          (edgeSrc g.data.length i) (edgeSrc g.x.length j)
          (edgeSrc_lt g.data.length i hL (by omega)) (edgeSrc_lt g.x.length j h2x hjx)
        exact this
      have step3 : cell (fillPerimeterData g.data) i j =
          cell g.data (edgeSrc g.data.length i) (edgeSrc g.x.length j) :=
        fillPerimeterData_cell g.data g.x.length hrect hL h2x i j (by omega) hjx
      rw [step1, step2, edgeSrc_idem g.data.length i hL (by omega),
        edgeSrc_idem g.x.length j h2x hjx, ← step3]
  show ({ { g with data := fillPerimeterData g.data } with
      data := fillPerimeterData (fillPerimeterData g.data) } : Grid) =
    { g with data := fillPerimeterData g.data }
  rw [hdata]

/-- Witness for C9 at a concrete 3-by-3 grid. -/
theorem fill_perimeter_idempotent_witness :
    gridEx3.WellShaped ∧ 2 ≤ gridEx3.y.length ∧ 2 ≤ gridEx3.x.length ∧
    fill_perimeter (fill_perimeter gridEx3) = fill_perimeter gridEx3 :=
  ⟨by decide, by decide, by decide,
    fill_perimeter_idempotent gridEx3 (by decide) (by decide) (by decide)⟩

/-- `getD` of a zipWith, in range on both sides. -/
theorem getD_zipWith {α β γ : Type} (f : α → β → γ) (a : List α) (b : List β)
    (i : Nat) (da : α) (db : β) (dc : γ) (hia : i < a.length) (hib : i < b.length) :
    (List.zipWith f a b).getD i dc = f (a.getD i da) (b.getD i db) := by
  have hlen : i < (List.zipWith f a b).length := by
    rw [List.length_zipWith]
    omega
  rw [getD_of_lt _ _ i hlen, getD_of_lt a da i hia, getD_of_lt b db i hib,
    List.getElem_zipWith]

theorem interpLike_data_length (src tgt : Grid) :
    (interpLike src tgt).data.length = tgt.y.length := by
  simp [interpLike]

theorem interpLike_data_rect (src tgt : Grid) :
    ∀ r ∈ (interpLike src tgt).data, r.length = tgt.x.length := by
  intro r hr
  simp only [interpLike, List.mem_map] at hr
  obtain ⟨ty, _, hre⟩ := hr
  rw [← hre]
  simp

/-- `fillnaVal` never returns NaN. -/
theorem fillnaVal_ne_nan (v : Val) : fillnaVal v ≠ Val.nan := by
  unfold fillnaVal
  split_ifs with h
  · exact fun hc => Val.noConfusion hc
  · exact h

/-- The shape of the perimeter-filled nearest-neighbor regrid of `C` onto
the coordinates of a well-shaped `F`. -/
theorem regrid_shape (F C : Grid) (hws : F.WellShaped) (h2y : 2 ≤ F.y.length) :
    (fill_perimeter (interpLike C F)).data.length = F.y.length ∧
    ∀ r ∈ (fill_perimeter (interpLike C F)).data, r.length = F.x.length := by
  constructor
  · show (fillPerimeterData (interpLike C F).data).length = F.y.length
    rw [fillPerimeterData_length, interpLike_data_length]
  · show ∀ r ∈ fillPerimeterData (interpLike C F).data, r.length = F.x.length
    exact fillPerimeterData_rect (interpLike C F).data F.x.length
      (interpLike_data_rect C F) (by rw [interpLike_data_length]; omega)

/-- Pointwise form of `fractional_contribution`: each output cell is the
fillna of the division of the fine value by the regridded coarse value. -/
theorem fractional_contribution_cell (F C : Grid) (hws : F.WellShaped)
    (h2y : 2 ≤ F.y.length) (i j : Nat) (hi : i < F.y.length) (hj : j < F.x.length) :
    cell (fractional_contribution F C).data i j =
      fillnaVal (valDiv (cell F.data i j)
        (cell (fill_perimeter (interpLike C F)).data i j)) := by
  obtain ⟨hlen, hrect⟩ := hws
  obtain ⟨hrlen, hrrect⟩ := regrid_shape F C ⟨hlen, hrect⟩ h2y
  have hiF : i < F.data.length := by omega
  have hiR : i < (fill_perimeter (interpLike C F)).data.length := by omega
  have hjF : j < (F.data.getD i []).length := by
    rw [hrect _ (getD_mem F.data [] i hiF)]
    exact hj
  have hjR : j < ((fill_perimeter (interpLike C F)).data.getD i []).length := by
    rw [hrrect _ (getD_mem _ [] i hiR)]
    exact hj
  show cell ((List.zipWith (List.zipWith valDiv) F.data
      (fill_perimeter (interpLike C F)).data).map (List.map fillnaVal)) i j = _
  unfold cell
  have hizip : i < (List.zipWith (List.zipWith valDiv) F.data
      (fill_perimeter (interpLike C F)).data).length := by
    rw [List.length_zipWith]
    omega
  rw [getD_map _ _ i [] [] hizip,
    getD_zipWith (List.zipWith valDiv) _ _ i [] [] [] hiF hiR]
  have hjzip : j < (List.zipWith valDiv (F.data.getD i [])
      ((fill_perimeter (interpLike C F)).data.getD i [])).length := by
    rw [List.length_zipWith]
    omega
  rw [getD_map _ _ j Val.nan Val.nan hjzip,
    getD_zipWith valDiv _ _ j Val.nan Val.nan Val.nan hjF hjR]

/-- C10: `fractional_contribution` replaces every NaN of the quotient with
0: in particular a NaN anywhere in the fine input yields an output of
exactly 0 at that cell, and the returned grid never contains NaN; a
nonzero-over-zero division, by contrast, yields an infinity that fillna
does not replace. -/
theorem fractional_contribution_replaces_all_nan (F C : Grid) (hws : F.WellShaped)
    (h2y : 2 ≤ F.y.length) (h2x : 2 ≤ F.x.length) :
    (∀ i j, i < F.y.length → j < F.x.length → cell F.data i j = Val.nan →
      cell (fractional_contribution F C).data i j = Val.num 0) ∧
    (∀ r ∈ (fractional_contribution F C).data, ∀ v ∈ r, v ≠ Val.nan) ∧
    valDiv (Val.num 1) (Val.num 0) = Val.inf ∧ fillnaVal Val.inf = Val.inf := by
  refine ⟨?_, ?_, by decide, by decide⟩
  · intro i j hi hj hnan
    rw [fractional_contribution_cell F C hws h2y i j hi hj, hnan]
    rfl
  · intro r hr v hv
    have hr' : r ∈ (List.zipWith (List.zipWith valDiv) F.data
        (fill_perimeter (interpLike C F)).data).map (List.map fillnaVal) := hr
    obtain ⟨r0, _, hre⟩ := List.mem_map.mp hr'
    rw [← hre] at hv
    obtain ⟨u, _, hue⟩ := List.mem_map.mp hv
    rw [← hue]
    exact fillnaVal_ne_nan u

/-- Example grid containing a NaN value, for the C10 witness. -/
def gridExNan : Grid :=
  { x := [0, 1], y := [0, 1],
    data := [[Val.nan, Val.num 2], [Val.num 3, Val.num 4]] }

/-- Witness for C10: a NaN in the fine grid becomes exactly 0 in the
fraction grid. -/
theorem fractional_contribution_replaces_all_nan_witness :
    gridExNan.WellShaped ∧ cell gridExNan.data 0 0 = Val.nan ∧
    cell (fractional_contribution gridExNan gridEx).data 0 0 = Val.num 0 :=
  ⟨by decide, by decide,
    (fractional_contribution_replaces_all_nan gridExNan gridEx (by decide)
      (by decide) (by decide)).1 0 0 (by decide) (by decide) (by decide)⟩

/-- `getD` of a prefix, within the prefix. -/
theorem getD_take {α : Type} (l : List α) (n m : Nat) (d : α) (h : m < n) :
    (l.take n).getD m d = l.getD m d := by
  simp [List.getD_eq_getElem?_getD, List.getElem?_take, h]

/-- `getD` of a suffix. -/
theorem getD_drop {α : Type} (l : List α) (n m : Nat) (d : α) :
    (l.drop n).getD m d = l.getD (n + m) d := by
  simp [List.getD_eq_getElem?_getD, List.getElem?_drop]

/-- The chunk at index `I` is the corresponding slice of the list. -/
theorem chunksGo_getD {α : Type} (k : Nat) (hk : k ≠ 0) :
    ∀ (fuel : Nat) (l : List α) (I : Nat), l.length ≤ fuel →
      (chunksGo k fuel l).getD I [] = (l.drop (I * k)).take k := by
  intro fuel
  induction fuel with
  | zero =>
      intro l I hl
      have : l = [] := List.length_eq_zero.mp (Nat.le_zero.mp hl)
      subst this
      simp [chunksGo]
  | succ fuel ih =>
      intro l I hl
      cases l with
      | nil => simp [chunksGo]
      | cons a l =>
          cases I with
          | zero => simp [chunksGo]
          | succ I =>
              have hlen : (a :: l).length = l.length + 1 := rfl
              have hdlen : ((a :: l).drop k).length = (a :: l).length - k := by simp
              have hdrop : ((a :: l).drop k).length ≤ fuel := by omega
              have harith : k + I * k = (I + 1) * k := by ring
              show (chunksGo k fuel ((a :: l).drop k)).getD I [] = _
              rw [ih _ I hdrop, List.drop_drop, harith]

/-- The chunk at index `I` is the corresponding slice of the list. -/
theorem chunks_getD {α : Type} (k : Nat) (hk : k ≠ 0) (l : List α) (I : Nat) :
    (chunks k l).getD I [] = (l.drop (I * k)).take k :=
  chunksGo_getD k hk l.length l I le_rfl

/-- An index whose block start lies inside the list indexes a chunk. -/
theorem chunksGo_length_lt {α : Type} (k : Nat) (hk : k ≠ 0) :
    ∀ (fuel : Nat) (l : List α) (I : Nat), l.length ≤ fuel → I * k < l.length →
      I < (chunksGo k fuel l).length := by
  intro fuel
  induction fuel with
  | zero =>
      intro l I hl hI
      omega
  | succ fuel ih =>
      intro l I hl hI
      cases l with
      | nil => simp at hI
      | cons a l =>
          cases I with
          | zero =>
              show 0 < ((a :: l).take k :: chunksGo k fuel ((a :: l).drop k)).length
              simp
          | succ I =>
              have hlen : (a :: l).length = l.length + 1 := rfl
              have hdlen : ((a :: l).drop k).length = (a :: l).length - k := by simp
              have hmul : (I + 1) * k = I * k + k := Nat.succ_mul I k
              have hdrop : ((a :: l).drop k).length ≤ fuel := by omega
              have hI' : I * k < ((a :: l).drop k).length := by omega
              have hrec := ih ((a :: l).drop k) I hdrop hI'
              have hstep : (chunksGo k (fuel + 1) (a :: l)).length =
                  (chunksGo k fuel ((a :: l).drop k)).length + 1 := rfl
              omega

theorem chunks_length_lt {α : Type} (k : Nat) (hk : k ≠ 0) (l : List α) (I : Nat)
    (hI : I * k < l.length) : I < (chunks k l).length :=
  chunksGo_length_lt k hk l.length l I le_rfl hI

/-- Flatten of a list of empty lists is empty. -/
theorem flatten_of_all_nil {α : Type} :
    ∀ L : List (List α), (∀ l ∈ L, l = []) → L.flatten = [] := by
  intro L
  induction L with
  | nil => intro _; rfl
  | cons a L ih =>
      intro h
      rw [List.flatten_cons, h a (by simp), ih (fun l hl => h l (by simp [hl]))]
      rfl

/-- The column block at index `J` of a row group is the concatenation of the
per-row slices starting at column `J * k`. -/
theorem colBlocksGo_getD {α : Type} (k : Nat) (hk : k ≠ 0) :
    ∀ (fuel : Nat) (grp : List (List α)) (J : Nat), (grp.map List.length).sum ≤ fuel →
      (colBlocksGo k fuel grp).getD J [] =
        (grp.map (fun r => (r.drop (J * k)).take k)).flatten := by
  intro fuel
  induction fuel with
  | zero =>
      intro grp J hl
      have hz : (grp.map List.length).sum = 0 := Nat.le_zero.mp hl
      have hall : ∀ r ∈ grp, r = [] := by
        intro r hr
        exact List.length_eq_zero.mp
          (List.sum_eq_zero_iff.mp hz r.length (List.mem_map_of_mem List.length hr))
      rw [flatten_of_all_nil _ (by
        intro x hx
        obtain ⟨r, hr, hre⟩ := List.mem_map.mp hx
        rw [← hre, hall r hr]
        simp)]
      simp [colBlocksGo]
  | succ fuel ih =>
      intro grp J hl
      by_cases hall : grp.all List.isEmpty = true
      · have hempty : ∀ r ∈ grp, r = [] := by
          intro r hr
          exact List.isEmpty_iff.mp (List.all_eq_true.mp hall r hr)
        rw [flatten_of_all_nil _ (by
          intro x hx
          obtain ⟨r, hr, hre⟩ := List.mem_map.mp hx
          rw [← hre, hempty r hr]
          simp)]
        simp [colBlocksGo, hall]
      · have hstep : colBlocksGo k (fuel + 1) grp =
            ((grp.map (List.take k)).flatten) :: colBlocksGo k fuel (grp.map (List.drop k)) := by
          simp [colBlocksGo, hall]
        rw [hstep]
        cases J with
        | zero =>
            show (grp.map (List.take k)).flatten = _
            congr 1
            apply List.map_congr_left
            intro r _
            rw [Nat.zero_mul, List.drop_zero]
        | succ J =>
            have hfuel : ((grp.map (List.drop k)).map List.length).sum ≤ fuel := by
              have := total_length_drop_lt k hk grp hall
              omega
            show (colBlocksGo k fuel (grp.map (List.drop k))).getD J [] = _
            rw [ih _ J hfuel, List.map_map]
            congr 1
            apply List.map_congr_left
            intro r _
            show ((r.drop k).drop (J * k)).take k = _
            rw [List.drop_drop]
            have harith : k + J * k = (J + 1) * k := by ring
            rw [harith]

theorem colBlocks_getD {α : Type} (k : Nat) (hk : k ≠ 0) (grp : List (List α)) (J : Nat) :
    (colBlocks k grp).getD J [] =
      (grp.map (fun r => (r.drop (J * k)).take k)).flatten :=
  colBlocksGo_getD k hk _ grp J le_rfl

/-- A column-block index whose start lies inside some row indexes a block. -/
theorem colBlocksGo_length_lt {α : Type} (k : Nat) (hk : k ≠ 0) :
    ∀ (fuel : Nat) (grp : List (List α)) (J : Nat), (grp.map List.length).sum ≤ fuel →
      (∃ r ∈ grp, J * k < r.length) → J < (colBlocksGo k fuel grp).length := by
  intro fuel
  induction fuel with
  | zero =>
      intro grp J hl hex
      obtain ⟨r, hr, hrl⟩ := hex
      have hz : (grp.map List.length).sum = 0 := Nat.le_zero.mp hl
      have : r.length = 0 :=
        List.sum_eq_zero_iff.mp hz r.length (List.mem_map_of_mem List.length hr)
      omega
  | succ fuel ih =>
      intro grp J hl hex
      obtain ⟨r, hr, hrl⟩ := hex
      have hnall : ¬grp.all List.isEmpty = true := by
        intro hall
        have : r = [] := List.isEmpty_iff.mp (List.all_eq_true.mp hall r hr)
        subst this
        simp at hrl
      have hstep : colBlocksGo k (fuel + 1) grp =
          ((grp.map (List.take k)).flatten) :: colBlocksGo k fuel (grp.map (List.drop k)) := by
        simp [colBlocksGo, hnall]
      rw [hstep]
      cases J with
      | zero => simp
      | succ J =>
          have hfuel : ((grp.map (List.drop k)).map List.length).sum ≤ fuel := by
            have := total_length_drop_lt k hk grp hnall
            omega
          have hex' : ∃ r' ∈ grp.map (List.drop k), J * k < r'.length := by
            refine ⟨r.drop k, List.mem_map_of_mem _ hr, ?_⟩
            rw [List.length_drop]
            have : (J + 1) * k = J * k + k := Nat.succ_mul J k
            omega
          have := ih (grp.map (List.drop k)) J hfuel hex'
          simp only [List.length_cons]
          omega

theorem colBlocks_length_lt {α : Type} (k : Nat) (hk : k ≠ 0) (grp : List (List α))
    (J : Nat) (hex : ∃ r ∈ grp, J * k < r.length) : J < (colBlocks k grp).length :=
  colBlocksGo_length_lt k hk _ grp J le_rfl hex

/-- The k-by-k aggregation window of block (I, J): rows I*k..I*k+k-1
restricted to columns J*k..J*k+k-1, flattened row-major. -/
def window (k : Nat) (rows : List (List Val)) (I J : Nat) : List Val :=
  (((rows.drop (I * k)).take k).map (fun r => (r.drop (J * k)).take k)).flatten

/-- The coarsened cell (I, J) is the aggregation of window (I, J). -/
theorem cell_coarsenData (k : Nat) (hk : k ≠ 0) (agg : List Val → Val)
    (rows : List (List Val)) (I J : Nat) (hI : I * k < rows.length)
    (hJ : ∃ r ∈ (rows.drop (I * k)).take k, J * k < r.length) :
    cell (coarsenData k agg rows) I J = agg (window k rows I J) := by
  unfold cell coarsenData window
  have hIlt : I < (chunks k rows).length := chunks_length_lt k hk rows I hI
  rw [getD_map _ _ I [] [] hIlt, chunks_getD k hk rows I]
  have hJlt : J < (colBlocks k ((rows.drop (I * k)).take k)).length :=
    colBlocks_length_lt k hk _ J hJ
  rw [getD_map _ agg J Val.nan [] hJlt, colBlocks_getD k hk _ J]

/-- The row containing index `i` is the `(i - (i/k)*k)`-th row of the `i/k`-th
row group. -/
theorem getD_block_row {α : Type} (k : Nat) (hk : k ≠ 0) (rows : List (List α))
    (i : Nat) (hi : i < rows.length) :
    ((rows.drop (i / k * k)).take k).getD (i - i / k * k) [] = rows.getD i [] := by
  have hdm := Nat.div_add_mod i k
  have hck : i / k * k = k * (i / k) := Nat.mul_comm _ _
  have hmod : i % k < k := Nat.mod_lt i (by omega)
  have h1 : i - i / k * k < k := by omega
  rw [getD_take _ _ _ _ h1, getD_drop]
  congr 1
  omega

/-- The row containing index `i` is a member of the `i/k`-th row group. -/
theorem mem_block_row {α : Type} (k : Nat) (hk : k ≠ 0) (rows : List (List α))
    (i : Nat) (hi : i < rows.length) :
    rows.getD i [] ∈ (rows.drop (i / k * k)).take k := by
  have hdm := Nat.div_add_mod i k
  have hck : i / k * k = k * (i / k) := Nat.mul_comm _ _
  have hmod : i % k < k := Nat.mod_lt i (by omega)
  have hlen : ((rows.drop (i / k * k)).take k).length =
      min k (rows.length - i / k * k) := by simp
  have hpos : i - i / k * k < ((rows.drop (i / k * k)).take k).length := by omega
  rw [← getD_block_row k hk rows i hi]
  exact getD_mem _ [] _ hpos

/-- The data value at (i, j) belongs to the aggregation window of its
block (i/k, j/k). -/
theorem cell_mem_window (k : Nat) (hk : k ≠ 0) (rows : List (List Val))
    (i j : Nat) (hi : i < rows.length) (hj : j < (rows.getD i []).length) :
    cell rows i j ∈ window k rows (i / k) (j / k) := by
  unfold cell window
  set r := rows.getD i [] with hr
  have hdm := Nat.div_add_mod j k
  have hck : j / k * k = k * (j / k) := Nat.mul_comm _ _
  have hmod : j % k < k := Nat.mod_lt j (by omega)
  have hslice : ((r.drop (j / k * k)).take k).getD (j - j / k * k) Val.nan =
      r.getD j Val.nan := by
    have h1 : j - j / k * k < k := by omega
    rw [getD_take _ _ _ _ h1, getD_drop]
    congr 1
    omega
  have hslen : ((r.drop (j / k * k)).take k).length = min k (r.length - j / k * k) := by
    simp
  have hpos : j - j / k * k < ((r.drop (j / k * k)).take k).length := by omega
  have hmemslice : r.getD j Val.nan ∈ (r.drop (j / k * k)).take k := by
    rw [← hslice]
    exact getD_mem _ Val.nan _ hpos
  refine List.mem_flatten.mpr ⟨(r.drop (j / k * k)).take k, ?_, hmemslice⟩
  exact List.mem_map_of_mem _ (mem_block_row k hk rows i hi)

/-- Every window value is a value of the underlying data. -/
theorem window_value_mem (k : Nat) (rows : List (List Val)) (I J : Nat) :
    ∀ v ∈ window k rows I J, ∃ r ∈ rows, v ∈ r := by
  intro v hv
  unfold window at hv
  obtain ⟨slice, hslice, hvmem⟩ := List.mem_flatten.mp hv
  obtain ⟨r, hr, hre⟩ := List.mem_map.mp hslice
  refine ⟨r, List.mem_of_mem_drop (List.mem_of_mem_take hr), ?_⟩
  rw [← hre] at hvmem
  exact List.mem_of_mem_drop (List.mem_of_mem_take hvmem)

/-- A sum of non-negative values is NaN, +infinity, or a non-negative
number. -/
theorem sum_notNeg_cases :
    ∀ l : List Val, (∀ v ∈ l, v.notNeg) →
      l.sum = Val.nan ∨ l.sum = Val.inf ∨ ∃ q : ℚ, 0 ≤ q ∧ l.sum = Val.num q := by
  intro l
  induction l with
  | nil =>
      intro _
      exact Or.inr (Or.inr ⟨0, le_refl 0, rfl⟩)
  | cons v l ih =>
      intro h
      have hv : v.notNeg := h v (by simp)
      have hrest := ih (fun w hw => h w (by simp [hw]))
      rw [List.sum_cons, val_add_def]
      cases v with
      | num a =>
          rcases hrest with hs | hs | ⟨q, hq, hs⟩
          · rw [hs]; exact Or.inl rfl
          · rw [hs]; exact Or.inr (Or.inl rfl)
          · rw [hs]
            refine Or.inr (Or.inr ⟨a + q, ?_, rfl⟩)
            have ha : (0 : ℚ) ≤ a := hv
            positivity
      | nan => exact Or.inl rfl
      | inf =>
          rcases hrest with hs | hs | ⟨q, hq, hs⟩ <;> rw [hs]
          · exact Or.inl rfl
          · exact Or.inr (Or.inl rfl)
          · exact Or.inr (Or.inl rfl)
      | neginf => exact absurd hv (by simp [Val.notNeg])

/-- A sum of non-negative values that is exactly zero forces every value to
be exactly zero. -/
theorem sum_notNeg_eq_zero :
    ∀ l : List Val, (∀ v ∈ l, v.notNeg) → l.sum = Val.num 0 →
      ∀ v ∈ l, v = Val.num 0 := by
  intro l
  induction l with
  | nil =>
      intro _ _ v hv
      simp at hv
  | cons v l ih =>
      intro h hsum w hw
      have hv : v.notNeg := h v (by simp)
      have hnneg : ∀ u ∈ l, u.notNeg := fun u hu => h u (by simp [hu])
      rw [List.sum_cons, val_add_def] at hsum
      cases v with
      | num a =>
          rcases sum_notNeg_cases l hnneg with hs | hs | ⟨q, hq, hs⟩
          · rw [hs] at hsum; exact absurd hsum (by simp [valAdd])
          · rw [hs] at hsum; exact absurd hsum (by simp [valAdd])
          · rw [hs] at hsum
            have ha : (0 : ℚ) ≤ a := hv
            have haq : a + q = 0 := by
              have : Val.num (a + q) = Val.num 0 := hsum
              injection this
            have ha0 : a = 0 := by linarith
            have hq0 : q = 0 := by linarith
            rcases List.mem_cons.mp hw with hwv | hwl
            · rw [hwv, ha0]
            · exact ih hnneg (by rw [hs, hq0]) w hwl
      | nan => exact absurd hsum (by simp [valAdd])
      | inf =>
          rcases sum_notNeg_cases l hnneg with hs | hs | ⟨q, hq, hs⟩ <;>
            rw [hs] at hsum <;> exact absurd hsum (by simp [valAdd])
      | neginf => exact absurd hv (by simp [Val.notNeg])

/-- Dividing zero by anything and replacing NaN with zero gives zero. -/
theorem fillna_zero_div (d : Val) : fillnaVal (valDiv (Val.num 0) d) = Val.num 0 := by
  cases d with
  | num b =>
      by_cases hb : b = 0
      · simp [valDiv, fillnaVal, hb]
      · simp [valDiv, fillnaVal, hb]
  | nan => rfl
  | inf => rfl
  | neginf => rfl

/-- A 3-by-3 grid whose single coarsening block sums to exactly zero while
containing the nonzero values +1 and -1. -/
def gridNegBlock : Grid :=
  { x := [0, 1, 2], y := [0, 1, 2],
    data := [[Val.num 1, Val.num (-1), Val.num 0],
             [Val.num 0, Val.num 0, Val.num 0],
             [Val.num 0, Val.num 0, Val.num 0]] }

/-- The coarsening of `gridNegBlock` by factor 3 is the single cell 0 at the
block-mean coordinates. -/
theorem coarsen_gridNegBlock :
    coarsen_finescale_emissions gridNegBlock 3 npSum =
      { x := [1], y := [1], data := [[Val.num 0]] } := by
  have h1 : coarsen_finescale_emissions gridNegBlock 3 npSum =
      { x := [coordMean [0, 1, 2]], y := [coordMean [0, 1, 2]],
        data := [[npSum [Val.num 1, Val.num (-1), Val.num 0, Val.num 0, Val.num 0,
          Val.num 0, Val.num 0, Val.num 0, Val.num 0]]] } := rfl
  have h2 : coordMean [0, 1, 2] = 1 := by
    norm_num [coordMean, List.sum_cons, List.sum_nil]
  have h3 : npSum [Val.num 1, Val.num (-1), Val.num 0, Val.num 0, Val.num 0,
      Val.num 0, Val.num 0, Val.num 0, Val.num 0] = Val.num 0 := by
    simp only [npSum, List.sum_cons, List.sum_nil, val_add_def, val_zero_def, valAdd]
    norm_num
  rw [h1, h2, h3]

/-- C7 counterexample: a fine grid whose aggregate coarse cell is exactly
zero, yet `fractional_contribution` returns +infinity (not 0) at the fine
cell (0, 0) inside that coarse cell's catchment, because the fine value +1
is divided by the zero coarse total. -/
theorem zero_mass_fraction_counterexample :
    cell (coarsen_finescale_emissions gridNegBlock 3 npSum).data 0 0 = Val.num 0 ∧
    cell (fractional_contribution gridNegBlock
      (coarsen_finescale_emissions gridNegBlock 3 npSum)).data 0 0 = Val.inf ∧
    Val.inf ≠ Val.num 0 := by
  rw [coarsen_gridNegBlock]
  refine ⟨by decide, by decide, by decide⟩

/-- C7 (amended): for every fine grid without negative values (and with at
least two points per axis, as the perimeter fill requires) paired with its
own sum-aggregate as the coarse grid, whenever a coarse cell's aggregate is
exactly 0, `fractional_contribution` returns exactly 0 at every fine cell of
that coarse cell's catchment block. -/
theorem zero_mass_coarse_cell_gives_zero_fraction (F : Grid) (k i j : Nat)
    (hws : F.WellShaped) (hodd : Odd k)
    (h2y : 2 ≤ F.y.length) (h2x : 2 ≤ F.x.length)
    (hnneg : ∀ r ∈ F.data, ∀ v ∈ r, v.notNeg)
    (hi : i < F.y.length) (hj : j < F.x.length)
    (hzero : cell (coarsen_finescale_emissions F k npSum).data (i / k) (j / k) =
      Val.num 0) :
    cell (fractional_contribution F (coarsen_finescale_emissions F k npSum)).data i j =
      Val.num 0 := by
  have hk : k ≠ 0 := by
    rcases hodd with ⟨m, hm⟩
    omega
  obtain ⟨hlen, hrect⟩ := hws
  have hiF : i < F.data.length := by omega
  have hrowlen : (F.data.getD i []).length = F.x.length :=
    hrect _ (getD_mem F.data [] i hiF)
  have hjF : j < (F.data.getD i []).length := by omega
  have hIbound : (i / k) * k < F.data.length := by
    have hdm := Nat.div_add_mod i k
    have hck : i / k * k = k * (i / k) := Nat.mul_comm _ _
    have hmod : i % k < k := Nat.mod_lt i (by omega)
    omega
  have hJex : ∃ r ∈ (F.data.drop (i / k * k)).take k, (j / k) * k < r.length := by
    refine ⟨F.data.getD i [], mem_block_row k hk F.data i hiF, ?_⟩
    rw [hrowlen]
    have hdm := Nat.div_add_mod j k
    have hck : j / k * k = k * (j / k) := Nat.mul_comm _ _
    have hmod : j % k < k := Nat.mod_lt j (by omega)
    omega
  have hcoarse : cell (coarsen_finescale_emissions F k npSum).data (i / k) (j / k) =
      npSum (window k F.data (i / k) (j / k)) :=
    cell_coarsenData k hk npSum F.data (i / k) (j / k) hIbound hJex
  rw [hcoarse] at hzero
  have hwnneg : ∀ v ∈ window k F.data (i / k) (j / k), v.notNeg := by
    intro v hv
    obtain ⟨r, hr, hvr⟩ := window_value_mem k F.data (i / k) (j / k) v hv
    exact hnneg r hr v hvr
  have hallzero := sum_notNeg_eq_zero (window k F.data (i / k) (j / k)) hwnneg hzero
  have hFzero : cell F.data i j = Val.num 0 :=
    hallzero _ (cell_mem_window k hk F.data i j hiF hjF)
  rw [fractional_contribution_cell F (coarsen_finescale_emissions F k npSum)
    ⟨hlen, hrect⟩ h2y i j hi hj, hFzero]
  exact fillna_zero_div _

/-- All-zero 3-by-3 grid for the C7 witness. -/
def gridZero3 : Grid :=
  { x := [0, 1, 2], y := [0, 1, 2],
    data := [[Val.num 0, Val.num 0, Val.num 0],
             [Val.num 0, Val.num 0, Val.num 0],
             [Val.num 0, Val.num 0, Val.num 0]] }

/-- The coarsening of `gridZero3` by factor 3 is the single cell 0. -/
theorem coarsen_gridZero3 :
    coarsen_finescale_emissions gridZero3 3 npSum =
      { x := [1], y := [1], data := [[Val.num 0]] } := by
  have h1 : coarsen_finescale_emissions gridZero3 3 npSum =
      { x := [coordMean [0, 1, 2]], y := [coordMean [0, 1, 2]],
        data := [[npSum [Val.num 0, Val.num 0, Val.num 0, Val.num 0, Val.num 0,
          Val.num 0, Val.num 0, Val.num 0, Val.num 0]]] } := rfl
  have h2 : coordMean [0, 1, 2] = 1 := by
    norm_num [coordMean, List.sum_cons, List.sum_nil]
  have h3 : npSum [Val.num 0, Val.num 0, Val.num 0, Val.num 0, Val.num 0,
      Val.num 0, Val.num 0, Val.num 0, Val.num 0] = Val.num 0 := by
    simp only [npSum, List.sum_cons, List.sum_nil, val_add_def, val_zero_def, valAdd]
    norm_num
  rw [h1, h2, h3]

/-- Witness for the amended C7 at a concrete all-zero grid with factor 3. -/
theorem zero_mass_coarse_cell_gives_zero_fraction_witness :
    gridZero3.WellShaped ∧ Odd 3 ∧
    (∀ r ∈ gridZero3.data, ∀ v ∈ r, v.notNeg) ∧
    cell (coarsen_finescale_emissions gridZero3 3 npSum).data 0 0 = Val.num 0 ∧
    cell (fractional_contribution gridZero3
      (coarsen_finescale_emissions gridZero3 3 npSum)).data 1 1 = Val.num 0 := by
  refine ⟨by decide, by decide, by decide, ?_, ?_⟩
  · rw [coarsen_gridZero3]
    decide
  · exact zero_mass_coarse_cell_gives_zero_fraction gridZero3 3 1 1 (by decide)
      (by decide) (by decide) (by decide) (by decide) (by decide) (by decide)
      (by rw [coarsen_gridZero3]; decide)
